import Mathlib

/-!
Verification of the sdc-docker-build Dockerfile builder.

This development gives a shallow embedding of the parts of the builder that
the checked properties talk about:

* the shell-word parser (`lib/shellparser.js`),
* the Node.js posix path primitives (`path.normalize`, `path.join`) and the
  symlink-safe path resolver `getRealpathFromRootDir`,
* the per-instruction helpers of the builder (`getCommandString`,
  `getNopCmdForCommand`, `sendCommandDetails`, `cmdExpose`, `cmdVolume`),
* a sequential model of the step pipeline (pre-hook, main hook, post-hook)
  for the FROM/CMD/ENTRYPOINT/RUN/USER instructions.

Strings are manipulated through their underlying character lists so that the
JavaScript primitives (`split`, `join`, `indexOf`, `substr`) have direct,
executable counterparts.
-/

namespace SdcDockerBuild

/-- Decidable equality for `Except`, so that concrete runs of the embedded
functions can be checked with `decide`. -/
instance {ε α : Type} [DecidableEq ε] [DecidableEq α] : DecidableEq (Except ε α)
  | .ok a, .ok b =>
    if h : a = b then .isTrue (by rw [h])
    else .isFalse (fun hh => h (by injection hh))
  | .ok _, .error _ => .isFalse (fun hh => Except.noConfusion hh)
  | .error _, .ok _ => .isFalse (fun hh => Except.noConfusion hh)
  | .error e, .error f =>
    if h : e = f then .isTrue (by rw [h])
    else .isFalse (fun hh => h (by injection hh))

/-! ### JavaScript string primitives -/

/-- JS `str.split(sep)` for a one-character separator, on character lists. -/
def splitOnChar (sep : Char) : List Char → List (List Char)
  | [] => [[]]
  | c :: cs =>
    if c = sep then [] :: splitOnChar sep cs
    else
      match splitOnChar sep cs with
      | [] => [[c]]
      | h :: t => (c :: h) :: t

/-- JS `arr.join(sep)` for a one-character separator, on character lists. -/
def joinChar (sep : Char) : List (List Char) → List Char
  | [] => []
  | [w] => w
  | w :: ws => w ++ sep :: joinChar sep ws

/-- JS `arr.join(' ')` on strings. -/
def joinSpace : List String → String
  | [] => ""
  | [s] => s
  | s :: ss => s ++ " " ++ joinSpace ss

/-! ### Shell-word parser (`lib/shellparser.js`) -/

/-- Errors thrown by the shell word parser.  The two `throw` sites of
`processDollar` are the BadShellSubstitution failures of the spec; `outOfFuel`
is the termination device of the embedding and is unreachable for the fuel
chosen by `processWord`. -/
inductive ShellError where
  | unsupportedModifier (m : Option Char) : ShellError
  | missingColon : ShellError
  | outOfFuel : ShellError
deriving DecidableEq

/-- A name character: `[a-zA-Z0-9_]` (from `processName`). -/
def nameChar (c : Char) : Bool := c.isAlpha || c.isDigit || c = '_'

/-- `ShellWord.prototype.processName`: read a name (alphanumeric or `_`);
if it starts with a digit, only that digit is consumed.  Returns the name and
the remaining input. -/
def processName : List Char → List Char × List Char
  | [] => ([], [])
  | c :: cs =>
    if c.isDigit then ([c], cs)
    else if nameChar c then (c :: cs.takeWhile nameChar, cs.dropWhile nameChar)
    else ([], c :: cs)

/-- `ShellWord.prototype.getEnv`: first entry whose `K=` prefix matches wins;
an entry without `=` matches by full name and yields the empty string; a
missing name yields the empty string. -/
def getEnv (envs : List String) (name : List Char) : List Char :=
  match envs with
  | [] => []
  | e :: rest =>
    let ed := e.data
    let pre := ed.takeWhile (fun c => c ≠ '=')
    if pre.length = ed.length then
      if name = ed then [] else getEnv rest name
    else
      if name = pre then ed.drop (pre.length + 1) else getEnv rest name

/-- `ShellWord.prototype.processSingleQuote`: everything verbatim until the
next `'` (input starts after the opening quote); returns the contents and the
input after the closing quote. -/
def processSingleQuote (cs : List Char) : List Char × List Char :=
  (cs.takeWhile fun x => x ≠ '\'', (cs.dropWhile fun x => x ≠ '\'').drop 1)

mutual

/-- `ShellWord.prototype.processStopOn`: process the word until the end or the
stop character, dispatching on `'`, `"` and `$`; `\` escapes the next
character.  Returns the accumulated result and the remaining input. -/
def processStopOn (envs : List String) (fuel : Nat) (stop : Option Char)
    (input : List Char) : Except ShellError (List Char × List Char) :=
  match fuel with
  | 0 => .error .outOfFuel
  | fuel + 1 =>
    match input with
    | [] => .ok ([], [])
    | c :: cs =>
      if stop = some c then .ok ([], cs)
      else if c = '\'' then
        let (res, rest) := processSingleQuote cs
        match processStopOn envs fuel stop rest with
        | .error e => .error e
        | .ok (r2, rem) => .ok (res ++ r2, rem)
      else if c = '"' then
        match processDoubleQuote envs fuel cs with
        | .error e => .error e
        | .ok (res, rest) =>
          match processStopOn envs fuel stop rest with
          | .error e => .error e
          | .ok (r2, rem) => .ok (res ++ r2, rem)
      else if c = '$' then
        match processDollar envs fuel (c :: cs) with
        | .error e => .error e
        | .ok (res, rest) =>
          match processStopOn envs fuel stop rest with
          | .error e => .error e
          | .ok (r2, rem) => .ok (res ++ r2, rem)
      else if c = '\\' then
        match cs with
        | [] => .ok ([], [])
        | d :: ds =>
          match processStopOn envs fuel stop ds with
          | .error e => .error e
          | .ok (r2, rem) => .ok (d :: r2, rem)
      else
        match processStopOn envs fuel stop cs with
        | .error e => .error e
        | .ok (r2, rem) => .ok (c :: r2, rem)

/-- `ShellWord.prototype.processDoubleQuote`: verbatim up to the closing `"`,
except `$` triggers expansion and `\` escapes only `"` and `$` (input starts
after the opening quote). -/
def processDoubleQuote (envs : List String) (fuel : Nat) (input : List Char) :
    Except ShellError (List Char × List Char) :=
  match fuel with
  | 0 => .error .outOfFuel
  | fuel + 1 =>
    match input with
    | [] => .ok ([], [])
    | c :: cs =>
      if c = '"' then .ok ([], cs)
      else if c = '$' then
        match processDollar envs fuel (c :: cs) with
        | .error e => .error e
        | .ok (res, rest) =>
          match processDoubleQuote envs fuel rest with
          | .error e => .error e
          | .ok (r2, rem) => .ok (res ++ r2, rem)
      else if c = '\\' then
        match cs with
        | [] => .ok ([], [])
        | d :: ds =>
          if d = '"' ∨ d = '$' then
            match processDoubleQuote envs fuel ds with
            | .error e => .error e
            | .ok (r2, rem) => .ok (d :: r2, rem)
          else
            match processDoubleQuote envs fuel cs with
            | .error e => .error e
            | .ok (r2, rem) => .ok ('\\' :: r2, rem)
      else
        match processDoubleQuote envs fuel cs with
        | .error e => .error e
        | .ok (r2, rem) => .ok (c :: r2, rem)

/-- `ShellWord.prototype.processDollar`: handles `$NAME`, a bare `$`,
`$\x7bNAME\x7d` and the `:+` / `:-` modifiers; an unsupported modifier or a
missing `:` throws.  The input starts at the `$` character, which is consumed
first (`this.next()`). -/
def processDollar (envs : List String) (fuel : Nat) (input : List Char) :
    Except ShellError (List Char × List Char) :=
  match fuel with
  | 0 => .error .outOfFuel
  | fuel + 1 =>
    let rest0 := input.drop 1
    if rest0.head? = some '{' then
      let (name, rest) := processName (rest0.drop 1)
      if rest.head? = some '}' then .ok (getEnv envs name, rest.drop 1)
      else if rest.head? = some ':' then
        let rest2 := rest.drop 1
        let modifier := rest2.head?
        match processStopOn envs fuel (some '}') (rest2.drop 1) with
        | .error e => .error e
        | .ok (word, rest4) =>
          let newValue := getEnv envs name
          if modifier = some '+' then
            .ok (if newValue = [] then newValue else word, rest4)
          else if modifier = some '-' then
            .ok (if newValue = [] then word else newValue, rest4)
          else .error (.unsupportedModifier modifier)
      else .error .missingColon
    else
      let (name, rest2) := processName rest0
      if name = [] then .ok (['$'], rest2)
      else .ok (getEnv envs name, rest2)

end

/-- `processWord(word, env)`: expand all variable references in `word` using
the environment list `env`. -/
def processWord (word : String) (env : List String) : Except ShellError String :=
  match processStopOn env (word.length + 1) none word.data with
  | .ok (res, _) => .ok (String.mk res)
  | .error e => .error e

/-- A well-formed shell variable name: non-empty, made of name characters,
and not starting with a digit (a leading digit is consumed alone by
`processName`). -/
def ValidName (name : List Char) : Bool :=
  !name.isEmpty && name.all nameChar &&
    (match name.head? with
     | some c => !c.isDigit
     | none => true)

/-! ### Node.js posix path primitives

`path.normalize` resolves `.` and `..` segments and collapses repeated
slashes; `path.join` concatenates the non-empty arguments with `/` and
normalizes the result.  These are the primitives used by
`getRealpathFromRootDir`. -/

/-- One step of Node's `normalizeString`: skip empty and `.` segments; on
`..` pop the previous segment unless it is itself `..`, in which case a `..`
is kept only for relative paths (`allowAboveRoot`).  The accumulator is kept
reversed. -/
def normStep (allowAboveRoot : Bool) (acc : List (List Char)) (c : List Char) :
    List (List Char) :=
  if c = [] ∨ c = ['.'] then acc
  else if c = ['.', '.'] then
    match acc with
    | [] => if allowAboveRoot then [['.', '.']] else []
    | a :: rest =>
      if a = ['.', '.'] then (if allowAboveRoot then c :: a :: rest else a :: rest)
      else rest
  else c :: acc

/-- Node's `normalizeString` on a component list. -/
def normComps (allowAboveRoot : Bool) (comps : List (List Char)) :
    List (List Char) :=
  (comps.foldl (normStep allowAboveRoot) []).reverse

/-- Node's `path.posix.normalize` on character lists. -/
def normalizeChars (p : List Char) : List Char :=
  if p = [] then ['.']
  else
    let isAbs := p.head? = some '/'
    let trailing := p.getLast? = some '/'
    let body := joinChar '/' (normComps (!isAbs) (splitOnChar '/' p))
    let body := if body = [] ∧ ¬isAbs then ['.'] else body
    let body := if body ≠ [] ∧ trailing then body ++ ['/'] else body
    if isAbs then '/' :: body else body

/-- Node's `path.posix.normalize`. -/
def pathNormalize (s : String) : String := String.mk (normalizeChars s.data)

/-- Node's `path.posix.join` restricted to two arguments (the only arity the
resolver uses): empty parts are dropped, the rest are joined with `/` and
normalized; joining nothing gives `"."`. -/
def pathJoin (a b : String) : String :=
  if a = "" ∧ b = "" then "."
  else if a = "" then pathNormalize b
  else if b = "" then pathNormalize a
  else String.mk (normalizeChars (a.data ++ '/' :: b.data))

/-! ### Path resolver (`getRealpathFromRootDir`) -/

/-- An entry of the modelled host file system, as seen through `lstat`. -/
inductive FSEntry where
  | file
  | dir
  | symlink (target : String)
deriving DecidableEq

/-- The host file system: a finite map from absolute outside paths to
entries; a missing path is `ENOENT`. -/
abbrev FileSystem := List (String × FSEntry)

/-- `fs.lstatSync` on the modelled file system.  A trailing slash on the
queried path refers to the same directory entry. -/
def fsLstat (fs : FileSystem) (p : String) : Option FSEntry :=
  let q := if p ≠ "/" ∧ p.data.getLast? = some '/' then String.mk p.data.dropLast else p
  fs.lookup q

/-- Errors raised by `getRealpathFromRootDir`: the ForbiddenPath exception
and the fatal too-many-symlinks error. -/
inductive ResolveError where
  | forbiddenPath (target : String)
  | tooManySymlinks (target : String)
deriving DecidableEq

/-- The containment assertion of the resolver: the outside path must equal
`rootDir` or extend `rootDir + "/"`. -/
def outsideRootCheck (rootDir outsidePath : String) : Bool :=
  (rootDir ++ "/").data.isPrefixOf outsidePath.data || outsidePath = rootDir

/-- The component walk of `getRealpathFromRootDir`.  `recurse` resolves a
symlink target (the enclosing function at the next loop count); `target` is
the original target used in error messages.  For each component: join it to
the inside path, recompute the outside path, assert containment, `lstat`; a
missing component appends the remaining components and stops; a symlink is
read, made absolute against the parent inside path and resolved through
`recurse`. -/
def resolveLoop (fs : FileSystem) (rootDir : String)
    (recurse : String → Except ResolveError String) (target : String) :
    String → List String → Except ResolveError String
  | containerPath, [] => .ok containerPath
  | containerPath, comp :: rest =>
    if !outsideRootCheck rootDir (pathJoin rootDir (pathJoin containerPath comp)) then
      .error (.forbiddenPath target)
    else
      match fsLstat fs (pathJoin rootDir (pathJoin containerPath comp)) with
      | none =>
        if rest = [] then .ok (pathJoin containerPath comp)
        else .ok (pathJoin (pathJoin containerPath comp)
          (String.mk (joinChar '/' (rest.map String.data))))
      | some (.symlink linkTarget) =>
        match recurse (if linkTarget.data.head? = some '/' then linkTarget
            else pathJoin containerPath linkTarget) with
        | .error e => .error e
        | .ok cp2 => resolveLoop fs rootDir recurse target cp2 rest
      | some _ => resolveLoop fs rootDir recurse target (pathJoin containerPath comp) rest

/-- The chopping of the normalized, `/`-split target: a leading empty
component (the root) and a trailing empty component (trailing slash) are
removed. -/
def chopTargetSplit (l : List Char) : List String :=
  let ts0 := (splitOnChar '/' l).map String.mk
  let ts1 := if ts0.head? = some "" then ts0.drop 1 else ts0
  if ts1.getLast? = some "" then ts1.dropLast else ts1

/-- `getRealpathFromRootDir(target, outsideRootDir, loopCount)` with the
remaining symlink budget `fuel` standing for `21 - loopCount`: the JS code
fails on entry when `loopCount > 20` and recurses with `loopCount + 1`.
The target is normalized and split on `/` and chopped; the walk starts at
the inside path `/`; a trailing slash on the target survives. -/
def getRealpathFromRootDirFuel (fs : FileSystem) (outsideRootDir : String) :
    Nat → String → Except ResolveError String
  | 0, target => .error (.tooManySymlinks target)
  | fuel + 1, target =>
    match resolveLoop fs outsideRootDir
        (getRealpathFromRootDirFuel fs outsideRootDir fuel) target "/"
        (chopTargetSplit (normalizeChars target.data)) with
    | .error e => .error e
    | .ok cp =>
      .ok (if target.data.getLast? = some '/' ∧ cp.data.getLast? ≠ some '/'
           then cp ++ "/" else cp)

/-- `getRealpathFromRootDir(target, outsideRootDir)` as called by the
builder (`loopCount` starting at 0). -/
def getRealpathFromRootDir (fs : FileSystem) (target outsideRootDir : String) :
    Except ResolveError String :=
  getRealpathFromRootDirFuel fs outsideRootDir 21 target

/-- A path component is clean when it is non-empty, not a dot segment and
slash-free; normalized absolute paths are made of clean components. -/
def CleanComp (w : List Char) : Prop :=
  w ≠ [] ∧ w ≠ ['.'] ∧ w ≠ ['.', '.'] ∧ '/' ∉ w

instance (w : List Char) : Decidable (CleanComp w) := by
  unfold CleanComp
  infer_instance

/-- The absolute path built from clean components, optionally with a
trailing slash. -/
def absPath (comps : List (List Char)) (trail : Bool) : List Char :=
  '/' :: joinChar '/' comps ++ (if trail then ['/'] else [])

/-- A string is a normalized absolute path: `/` followed by clean
components, with a trailing slash only on a non-empty component list. -/
def IsAbsNorm (s : String) : Prop :=
  ∃ comps trail, (∀ w ∈ comps, CleanComp w) ∧ (trail = true → comps ≠ []) ∧
    s.data = absPath comps trail

/-! ### Builder command helpers -/

/-- The `cmd.args` payload of a parsed Dockerfile instruction: a plain
string, an array of strings, or a key/value object (ENV, LABEL). -/
inductive CmdArgs where
  | str (s : String)
  | list (l : List String)
  | map (kvs : List (String × String))
deriving DecidableEq

/-- `fixShellCommandArguments`: a string argument is wrapped as
`["/bin/sh", "-c", arg]`; an array is kept as is.  (A map argument never
reaches the shell commands; the JS assertion would fire.) -/
def fixShellCommandArguments : CmdArgs → List String
  | .str s => ["/bin/sh", "-c", s]
  | .list l => l
  | .map _ => []

/-- `getCommandString(cmd)`: the instruction name followed by the rendered
arguments (arrays joined by spaces, objects rendered as `K=V` pairs). -/
def getCommandString (name : String) (args : CmdArgs) : String :=
  name ++ " " ++
    (match args with
     | .str s => s
     | .list l => joinSpace l
     | .map kvs => joinSpace (kvs.map fun kv => kv.1 ++ "=" ++ kv.2))

/-- The builder's `buildArgs` object: ARG entries with their values, as an
insertion-ordered association list (`Object.keys` order for identifier
keys). -/
abbrev BuildArgs := List (String × Option String)

/-- `getNopCmdForCommand(cmd)`: the synthetic cache command.  For `RUN`,
the currently defined build args with non-null values are prepended as
`|N` followed by `K=V` entries; for `ENTRYPOINT`/`CMD` the rendered string
is the bracketed quoted argument list (the instruction name is dropped when
`cmdString` is reassigned); otherwise `#(nop) <name> <args>`.  `args` is the
argument payload after the pre-hook (shell commands are already arrays). -/
def getNopCmdForCommand (buildArgs : BuildArgs) (name : String)
    (args : CmdArgs) : List String :=
  let cmdString := getCommandString name args
  if name = "RUN" then
    let keys := buildArgs.filter fun kv => kv.2 ≠ none
    let cmdArray :=
      if keys.length > 0 then
        ("|" ++ toString keys.length) ::
          keys.map (fun kv => kv.1 ++ "=" ++ kv.2.getD "")
      else []
    match args with
    | .list l => cmdArray ++ l
    | _ => cmdArray ++ ["/bin/sh", "-c", "#(nop) " ++ cmdString]
  else
    let cmdString2 :=
      if name = "ENTRYPOINT" ∨ name = "CMD" then
        "[" ++ joinSpace ((match args with
          | .list l => l
          | _ => []).map fun a => "\"" ++ a ++ "\"") ++ "]"
      else cmdString
    ["/bin/sh", "-c", "#(nop) " ++ cmdString2]

/-- `sendCommandDetails(cmd)`: the stdout progress line for the current
step; `stepNo` is the zero-based step number after the increment done by
`step()`. -/
def sendCommandDetails (stepNo : Nat) (name : String) (args : CmdArgs) :
    String :=
  "Step " ++ toString (stepNo + 1) ++ " : " ++ getCommandString name args ++ "\n"

/-- `addConfigArrayAsMap`: add each value as a key of the map-as-set
property (insertion order, duplicates collapse onto the first
occurrence). -/
def addConfigArrayAsMap (cur : Option (List String)) (args : List String) :
    List String :=
  args.foldl (fun m v => if v ∈ m then m else m ++ [v]) (cur.getD [])

/-- The image config fields that the modelled instructions touch.  Unset
collection fields are `none` (serialized as null). -/
structure DockerConfig where
  Cmd : Option (List String) := none
  Entrypoint : Option (List String) := none
  User : String := ""
  ExposedPorts : Option (List String) := none
  Volumes : Option (List String) := none
deriving DecidableEq

/-- JS `parseInt(s, 10)` restricted to the non-negative inputs the EXPOSE
handler sees: the leading run of decimal digits, `none` for NaN. -/
def parseIntJS (s : String) : Option Nat :=
  let ds := s.data.takeWhile Char.isDigit
  if ds = [] then none
  else some (ds.foldl (fun n c => n * 10 + (c.toNat - '0'.toNat)) 0)

/-- The body of `cmdExpose`'s per-argument expansion: split off the
protocol on `/` (default `tcp`), then expand `begin-end` port ranges;
`end < begin` is an error; a NaN bound yields no entries (the JS `for`
loop body never runs). -/
def expandPortArg (portArg : String) : Except String (List String) :=
  let sp := (splitOnChar '/' portArg.data).map String.mk
  let port := match sp with
    | _ :: _ :: _ => sp.headD portArg
    | _ => portArg
  let proto := match sp with
    | _ :: p :: _ => p
    | _ => "tcp"
  let sp2 := (splitOnChar '-' port.data).map String.mk
  match sp2 with
  | b :: e :: _ =>
    match parseIntJS b, parseIntJS e with
    | some bn, some en =>
      if en < bn then .error ("Invalid containerPort: " ++ port)
      else .ok ((List.range (en + 1 - bn)).map
        fun k => toString (bn + k) ++ "/" ++ proto)
    | _, _ => .ok []
  | _ => .ok [port ++ "/" ++ proto]

/-- `cmdExposePreFn` followed by `cmdExpose`: lowercase every argument,
expand each, remember the last error if any, flatten and add the entries to
`config.ExposedPorts`. -/
def cmdExpose (cfg : DockerConfig) (args : List String) :
    Except String DockerConfig :=
  let largs := args.map fun s => String.mk (s.data.map Char.toLower)
  let step := fun (acc : Option String × List String) (a : String) =>
    match expandPortArg a with
    | .error e => (some e, acc.2)
    | .ok es => (acc.1, acc.2 ++ es)
  let res := largs.foldl step (none, [])
  match res.1 with
  | some e => .error e
  | none =>
    .ok { cfg with ExposedPorts := some (addConfigArrayAsMap cfg.ExposedPorts res.2) }

/-- `cmdVolume`: fail when the first argument is missing or the empty
string, otherwise add every argument as a key of `config.Volumes`. -/
def cmdVolume (cfg : DockerConfig) (args : List String) :
    Except String DockerConfig :=
  if args.headD "" = "" then
    .error "Volume specified can not be an empty string"
  else
    .ok { cfg with Volumes := some (addConfigArrayAsMap cfg.Volumes args) }

/-! ### Sequential step pipeline (FROM / CMD / ENTRYPOINT / RUN / USER)

`Builder.prototype.step` runs, for each instruction, the pre-hook (argument
normalization), the main hook (the `cmd<Name>` handler) and the post-hook
`doPostStep`, which rebuilds `container_config` as a deep copy of `config`
with `Cmd` replaced by the synthetic nop command and appends the layer
snapshot.  Caching is disabled in this model (`isCached` is always false);
the RUN task is delegated to the host and leaves the config untouched. -/

/-- The modelled instructions. -/
inductive Instr where
  | fromScratch
  | cmdI (args : CmdArgs)
  | entrypointI (args : CmdArgs)
  | runI (args : CmdArgs)
  | userI (s : String)
deriving DecidableEq

/-- The Dockerfile name of an instruction. -/
def Instr.name : Instr → String
  | .fromScratch => "FROM"
  | .cmdI _ => "CMD"
  | .entrypointI _ => "ENTRYPOINT"
  | .runI _ => "RUN"
  | .userI _ => "USER"

/-- The argument payload after the pre-hook: shell commands are wrapped
into arrays by `fixShellCommandArguments`; FROM and USER keep their string
argument. -/
def Instr.fixedArgs : Instr → CmdArgs
  | .fromScratch => .str "scratch"
  | .cmdI a => .list (fixShellCommandArguments a)
  | .entrypointI a => .list (fixShellCommandArguments a)
  | .runI a => .list (fixShellCommandArguments a)
  | .userI s => .str s

/-- A stored layer: the instruction name together with the `Cmd` fields of
the deep-copied `config` and `container_config` snapshots. -/
structure Layer where
  name : String
  configCmd : Option (List String)
  containerCmd : Option (List String)
deriving DecidableEq

/-- The builder state threaded through the steps. -/
structure BuildState where
  config : DockerConfig := {}
  cmdSet : Bool := false
  buildArgs : BuildArgs := []
  layers : List Layer := []
deriving DecidableEq

/-- The main hook of each modelled instruction (`cmdFrom` for scratch,
`cmdCmd`, `cmdEntrypoint`, `cmdRun`, `cmdUser`). -/
def mainStep (st : BuildState) : Instr → BuildState
  | .fromScratch => st
  | .cmdI a =>
    { st with
      config := { st.config with Cmd := some (fixShellCommandArguments a) }
      cmdSet := true }
  | .entrypointI a =>
    { st with
      config := { st.config with
        Entrypoint := some (fixShellCommandArguments a)
        Cmd := if st.cmdSet then st.config.Cmd else none } }
  | .runI _ => st
  | .userI s => { st with config := { st.config with User := s } }

/-- `doPostStep` (non-cached): `container_config` becomes a deep copy of
`config` with `Cmd` replaced by the nop command, and the layer snapshot is
appended. -/
def postStep (st : BuildState) (i : Instr) : BuildState :=
  let nop := getNopCmdForCommand st.buildArgs i.name i.fixedArgs
  { st with
    layers := st.layers ++
      [{ name := i.name, configCmd := st.config.Cmd, containerCmd := some nop }] }

/-- One full step: main hook then post hook. -/
def runStep (st : BuildState) (i : Instr) : BuildState :=
  postStep (mainStep st i) i

/-- Run a list of instructions in file order. -/
def runBuild (st : BuildState) (instrs : List Instr) : BuildState :=
  instrs.foldl runStep st

/-- Whether an instruction is a CMD instruction. -/
def Instr.isCmd : Instr → Bool
  | .cmdI _ => true
  | _ => false

/-! ## Theorems -/

/-! ### Shell-word parser lemmas -/

theorem takeWhile_append_all {p : Char → Bool} (l r : List Char)
    (h : ∀ c ∈ l, p c = true) (hr : ∀ c, r.head? = some c → p c = false) :
    (l ++ r).takeWhile p = l ∧ (l ++ r).dropWhile p = r := by
  induction l with
  | nil =>
    simp only [List.nil_append, List.takeWhile, List.dropWhile]
    cases r with
    | nil => simp [List.takeWhile, List.dropWhile]
    | cons c cs =>
      have := hr c rfl
      simp [List.takeWhile, List.dropWhile, this]
  | cons a l ih =>
    have ha : p a = true := h a (by simp)
    have ih2 := ih (fun c hc => h c (by simp [hc]))
    simp [List.takeWhile, List.dropWhile, ha, ih2.1, ih2.2]

theorem processName_append (name rest : List Char) (hv : ValidName name = true)
    (hstop : ∀ c, rest.head? = some c → nameChar c = false) :
    processName (name ++ rest) = (name, rest) := by
  cases name with
  | nil => simp [ValidName] at hv
  | cons n ns =>
    simp only [ValidName, List.isEmpty_cons, Bool.not_false, Bool.true_and,
      List.all_cons, List.head?_cons, Bool.and_eq_true, Bool.not_eq_true'] at hv
    obtain ⟨⟨hn, hns⟩, hd⟩ := hv
    have hw := takeWhile_append_all (p := nameChar) ns rest
      (fun c hc => by simpa using List.all_eq_true.mp hns c hc) hstop
    simp [processName, hd, hn, hw.1, hw.2]

/-- C6 and C10 share the fact that a name character stops at the listed
delimiters; record the frequently used instances. -/
theorem nameChar_colon : nameChar ':' = false := by decide

/-! ### C6: the `:+` / `:-` modifiers and the BadShellSubstitution errors -/

/-- C6: for every word and environment list, expanding a token
`$\x7bNAME:+word\x7d` yields the recursively expanded word when NAME's value
is non-empty and the empty string otherwise; `$\x7bNAME:-word\x7d` yields the
word when NAME's value is empty and NAME's value otherwise; a modifier after
`:` other than `+` or `-` raises the unsupported-modifier error (after the
word is parsed), and a character after NAME that is neither `\x7d` nor `:`
raises the missing-colon error.  These are the two BadShellSubstitution
throw sites of `processDollar`. -/
theorem claim6_shell_substitution :
    (∀ fuel envs name w, ValidName name = true →
      processDollar envs (fuel + 1) ('$' :: '{' :: (name ++ ':' :: '+' :: w)) =
        match processStopOn envs fuel (some '}') w with
        | .error e => .error e
        | .ok pr => .ok ((if getEnv envs name = [] then [] else pr.1), pr.2)) ∧
    (∀ fuel envs name w, ValidName name = true →
      processDollar envs (fuel + 1) ('$' :: '{' :: (name ++ ':' :: '-' :: w)) =
        match processStopOn envs fuel (some '}') w with
        | .error e => .error e
        | .ok pr => .ok ((if getEnv envs name = [] then pr.1 else getEnv envs name), pr.2)) ∧
    (∀ fuel envs name m w, ValidName name = true → m ≠ '+' → m ≠ '-' →
      processDollar envs (fuel + 1) ('$' :: '{' :: (name ++ ':' :: m :: w)) =
        match processStopOn envs fuel (some '}') w with
        | .error e => .error e
        | .ok _ => .error (.unsupportedModifier (some m))) ∧
    (∀ fuel envs name c rest, ValidName name = true → nameChar c = false →
      c ≠ '}' → c ≠ ':' →
      processDollar envs (fuel + 1) ('$' :: '{' :: (name ++ c :: rest)) =
        .error .missingColon) := by
  refine ⟨?_, ?_, ?_, ?_⟩
  · intro fuel envs name w hv
    simp only [processDollar, List.drop_succ_cons, List.drop_zero, List.head?_cons,
      Option.some.injEq, if_pos rfl]
    rw [processName_append name (':' :: '+' :: w) hv
      (by intro c hc; simp only [List.head?_cons, Option.some.injEq] at hc
          exact hc ▸ (by decide))]
    cases hps : processStopOn envs fuel (some '}') w <;> simp [hps]
    split <;> simp_all
  · intro fuel envs name w hv
    simp only [processDollar, List.drop_succ_cons, List.drop_zero, List.head?_cons,
      Option.some.injEq, if_pos rfl]
    rw [processName_append name (':' :: '-' :: w) hv
      (by intro c hc; simp only [List.head?_cons, Option.some.injEq] at hc
          exact hc ▸ (by decide))]
    cases hps : processStopOn envs fuel (some '}') w <;> simp [hps]
  · intro fuel envs name m w hv hp hm
    simp only [processDollar, List.drop_succ_cons, List.drop_zero, List.head?_cons,
      Option.some.injEq, if_pos rfl]
    rw [processName_append name (':' :: m :: w) hv
      (by intro c hc; simp only [List.head?_cons, Option.some.injEq] at hc
          exact hc ▸ (by decide))]
    cases hps : processStopOn envs fuel (some '}') w <;> simp [hps, hp, hm]
  · intro fuel envs name c rest hv hnc hbrace hcolon
    simp only [processDollar, List.drop_succ_cons, List.drop_zero, List.head?_cons,
      Option.some.injEq, if_pos rfl]
    rw [processName_append name (c :: rest) hv
      (by intro x hx; simp only [List.head?_cons, Option.some.injEq] at hx
          exact hx ▸ hnc)]
    simp [hbrace, hcolon]

/-- C6 witness: the four parts of `claim6_shell_substitution` applied at
concrete inputs. -/
theorem claim6_witness :
    (ValidName "FOO".data = true) ∧
    (processDollar ["FOO=1"] 11 ('$' :: '{' :: ("FOO".data ++ ':' :: '+' :: "yes\x7d".data)) =
      match processStopOn ["FOO=1"] 10 (some '}') "yes\x7d".data with
      | .error e => .error e
      | .ok pr => .ok ((if getEnv ["FOO=1"] "FOO".data = [] then [] else pr.1), pr.2)) ∧
    (processDollar ["FOO=1"] 11 ('$' :: '{' :: ("FOO".data ++ ':' :: '-' :: "no\x7d".data)) =
      match processStopOn ["FOO=1"] 10 (some '}') "no\x7d".data with
      | .error e => .error e
      | .ok pr => .ok ((if getEnv ["FOO=1"] "FOO".data = [] then pr.1
          else getEnv ["FOO=1"] "FOO".data), pr.2)) ∧
    (processDollar ["FOO=1"] 11 ('$' :: '{' :: ("FOO".data ++ ':' :: '%' :: "x\x7d".data)) =
      match processStopOn ["FOO=1"] 10 (some '}') "x\x7d".data with
      | .error e => .error e
      | .ok _ => .error (.unsupportedModifier (some '%'))) ∧
    (processDollar ["FOO=1"] 11 ('$' :: '{' :: ("FOO".data ++ '-' :: "x\x7d".data)) =
      .error .missingColon) :=
  ⟨by decide,
   claim6_shell_substitution.1 10 ["FOO=1"] "FOO".data "yes\x7d".data (by decide),
   claim6_shell_substitution.2.1 10 ["FOO=1"] "FOO".data "no\x7d".data (by decide),
   claim6_shell_substitution.2.2.1 10 ["FOO=1"] "FOO".data '%' "x\x7d".data (by decide)
     (by decide) (by decide),
   claim6_shell_substitution.2.2.2 10 ["FOO=1"] "FOO".data '-' "x\x7d".data (by decide)
     (by decide) (by decide) (by decide)⟩

/-! ### C10: a `$` not followed by `\x7b` or a name character is literal -/

/-- C10: a `$` followed by neither `\x7b` nor a name character (letter,
digit or underscore) — including a `$` at the very end of the word —
expands to the literal character `$` (and consumes nothing further), rather
than raising an error or producing the empty string. -/
theorem claim10_literal_dollar :
    (∀ fuel envs c rest, nameChar c = false → c ≠ '{' →
      processDollar envs (fuel + 1) ('$' :: c :: rest) = .ok (['$'], c :: rest)) ∧
    (∀ fuel envs, processDollar envs (fuel + 1) ['$'] = .ok (['$'], [])) := by
  constructor
  · intro fuel envs c rest hnc hb
    have hdig : c.isDigit = false := by
      by_contra h
      simp only [Bool.not_eq_false] at h
      simp [nameChar, h] at hnc
    simp [processDollar, processName, hdig, hnc, hb]
  · intro fuel envs
    simp [processDollar, processName]

/-- C10 witness: `claim10_literal_dollar` applied to `$.` and to a lone
`$`. -/
theorem claim10_witness :
    (nameChar '.' = false) ∧
    (processDollar [] 6 ('$' :: '.' :: "x".data) = .ok (['$'], '.' :: "x".data)) ∧
    (processDollar [] 6 ['$'] = .ok (['$'], [])) :=
  ⟨by decide,
   claim10_literal_dollar.1 5 [] '.' "x".data (by decide) (by decide),
   claim10_literal_dollar.2 5 []⟩

/-! ### C3: the per-step stdout progress line -/

/-- C3 counterexample: for the first step of the four-instruction
helloWorldRun Dockerfile, the builder emits `Step 1 : FROM scratch\n` —
the total number of steps never appears, so the line differs from the
claimed `Step 1/4 : FROM scratch\n`. -/
theorem claim3_counterexample :
    sendCommandDetails 0 "FROM" (.str "scratch") = "Step 1 : FROM scratch\n" ∧
      sendCommandDetails 0 "FROM" (.str "scratch") ≠ "Step 1/4 : FROM scratch\n" := by
  constructor <;> decide

/-- C3 amended: before processing the step with zero-based index `i`, the
builder emits `Step <i+1> : <instruction name and rendered arguments>\n`;
the total instruction count `N` is not part of the line.  String arguments
are rendered verbatim, array arguments are joined by spaces, and map
arguments are rendered as space-joined `K=V` pairs. -/
theorem claim3_amended :
    (∀ i name s, sendCommandDetails i name (.str s) =
      "Step " ++ toString (i + 1) ++ " : " ++ name ++ " " ++ s ++ "\n") ∧
    (∀ i name l, sendCommandDetails i name (.list l) =
      "Step " ++ toString (i + 1) ++ " : " ++ name ++ " " ++ joinSpace l ++ "\n") ∧
    (∀ i name kvs, sendCommandDetails i name (.map kvs) =
      "Step " ++ toString (i + 1) ++ " : " ++ name ++ " " ++
        joinSpace (kvs.map fun kv => kv.1 ++ "=" ++ kv.2) ++ "\n") := by
  refine ⟨fun i name s => ?_, fun i name l => ?_, fun i name kvs => ?_⟩ <;>
    simp [sendCommandDetails, getCommandString, String.append_assoc]

/-! ### C4: the RUN cache nop command -/

/-- C4 counterexample: with the build args registered in the order `B=1`,
`A=2`, the RUN nop command lists the `K=V` entries in registration order
(`Object.keys` order), not sorted: the claimed sorted list differs. -/
theorem claim4_counterexample :
    getNopCmdForCommand [("B", some "1"), ("A", some "2")] "RUN"
        (.list (fixShellCommandArguments (.str "echo hi"))) =
      ["|2", "B=1", "A=2", "/bin/sh", "-c", "echo hi"] ∧
    getNopCmdForCommand [("B", some "1"), ("A", some "2")] "RUN"
        (.list (fixShellCommandArguments (.str "echo hi"))) ≠
      ["|2", "A=2", "B=1", "/bin/sh", "-c", "echo hi"] := by
  constructor <;> decide

/-- C4 amended: for every RUN instruction, if build args with non-null
values exist, the nop command begins with `|N` (N the number of such args)
followed by the N `K=V` entries filtered to non-null values *in
registration order* (not sorted), and then the pre-hook-wrapped RUN
argument array is appended. -/
theorem claim4_amended :
    (∀ (bargs : BuildArgs) (l : List String),
      (bargs.filter fun kv => kv.2 ≠ none) = [] →
      getNopCmdForCommand bargs "RUN" (.list l) = l) ∧
    (∀ (bargs : BuildArgs) (l : List String) (ks : BuildArgs),
      (bargs.filter fun kv => kv.2 ≠ none) = ks → ks ≠ [] →
      getNopCmdForCommand bargs "RUN" (.list l) =
        ("|" ++ toString ks.length) ::
          (ks.map fun kv => kv.1 ++ "=" ++ kv.2.getD "") ++ l) := by
  constructor
  · intro bargs l h
    unfold getNopCmdForCommand
    rw [h]
    simp
  · intro bargs l ks hks hne
    unfold getNopCmdForCommand
    rw [hks]
    simp [List.length_pos.mpr hne]

/-- C4 witness: `claim4_amended` applied to a RUN with no non-null build
args and to a RUN with two build args registered as `B=1` then `A=2`. -/
theorem claim4_witness :
    (([("X", none)] : BuildArgs).filter (fun kv => kv.2 ≠ none) = [] ∧
      getNopCmdForCommand [("X", none)] "RUN" (.list ["/bin/sh", "-c", "x"]) =
        ["/bin/sh", "-c", "x"]) ∧
    (([("B", some "1"), ("A", some "2")] : BuildArgs).filter
        (fun kv => kv.2 ≠ none) = [("B", some "1"), ("A", some "2")] ∧
      getNopCmdForCommand [("B", some "1"), ("A", some "2")] "RUN"
          (.list ["/bin/sh", "-c", "x"]) =
        ("|" ++ toString ([("B", some "1"), ("A", some "2")] : BuildArgs).length) ::
          (([("B", some "1"), ("A", some "2")] : BuildArgs).map
            fun kv => kv.1 ++ "=" ++ kv.2.getD "") ++ ["/bin/sh", "-c", "x"]) :=
  ⟨⟨by decide, claim4_amended.1 [("X", none)] ["/bin/sh", "-c", "x"] (by decide)⟩,
   ⟨by decide, claim4_amended.2 [("B", some "1"), ("A", some "2")]
      ["/bin/sh", "-c", "x"] [("B", some "1"), ("A", some "2")] (by decide) (by decide)⟩⟩

/-! ### C5: the ENTRYPOINT / CMD cache nop command -/

/-- C5 counterexample: for `CMD ["/hello"]` the computed nop command is
`#(nop) ["/hello"]`; the instruction name is dropped when `cmdString` is
reassigned, so the claimed `#(nop) CMD ["/hello"]` form is wrong. -/
theorem claim5_counterexample :
    getNopCmdForCommand [] "CMD" (.list ["/hello"]) =
      ["/bin/sh", "-c", "#(nop) [\"/hello\"]"] ∧
    getNopCmdForCommand [] "CMD" (.list ["/hello"]) ≠
      ["/bin/sh", "-c", "#(nop) CMD [\"/hello\"]"] := by
  constructor <;> decide

/-- C5 amended: for every ENTRYPOINT or CMD instruction with argument list
`[arg1, ..., argk]`, the cache nop command equals
`["/bin/sh", "-c", "#(nop) [\"arg1\" ... \"argk\"]"]`: the `#(nop) ` marker
followed directly by the bracketed, double-quoted, space-joined argument
list — the instruction name does not appear. -/
theorem claim5_amended (bargs : BuildArgs) (args : List String) :
    getNopCmdForCommand bargs "CMD" (.list args) =
      ["/bin/sh", "-c",
        "#(nop) [" ++ joinSpace (args.map fun a => "\"" ++ a ++ "\"") ++ "]"] ∧
    getNopCmdForCommand bargs "ENTRYPOINT" (.list args) =
      ["/bin/sh", "-c",
        "#(nop) [" ++ joinSpace (args.map fun a => "\"" ++ a ++ "\"") ++ "]"] := by
  have h : "#(nop) " ++ "[" = "#(nop) [" := rfl
  constructor <;>
    · simp [getNopCmdForCommand]
      simp only [← String.append_assoc]
      rw [h]

/-! ### C9: VOLUME arguments and the empty-string check -/

/-- C9 counterexample: `VOLUME ["/a", ""]` contains an empty-string entry
at position 1 but the build does not fail: only `args[0]` is checked, and
both entries (the empty string included) are added to `config.Volumes`. -/
theorem claim9_counterexample :
    cmdVolume {} ["/a", ""] = .ok { Volumes := some ["/a", ""] } := by
  decide

/-- Elements fed to `addConfigArrayAsMap` end up as keys of the result. -/
theorem addConfigArrayAsMap_mem_aux (l : List String) (acc : List String)
    (a : String) (h : a ∈ acc ∨ a ∈ l) :
    a ∈ l.foldl (fun m v => if v ∈ m then m else m ++ [v]) acc := by
  induction l generalizing acc with
  | nil => simpa using h.resolve_right (by simp)
  | cons x xs ih =>
    simp only [List.foldl_cons]
    refine ih _ ?_
    rcases h with h | h
    · left; split <;> simp [h]
    · rcases List.mem_cons.mp h with rfl | h
      · left; split
        · assumption
        · simp
      · right; exact h

theorem addConfigArrayAsMap_mem (cur : Option (List String))
    (args : List String) (a : String) (h : a ∈ args) :
    a ∈ addConfigArrayAsMap cur args :=
  addConfigArrayAsMap_mem_aux args (cur.getD []) a (Or.inr h)

/-- C9 amended: a VOLUME instruction fails with the
`Volume specified can not be an empty string` error exactly when its *first*
argument is missing or the empty string; an empty string at a later
position is accepted, and every argument (empty strings included) is added
as a key of `config.Volumes`. -/
theorem claim9_amended (cfg : DockerConfig) (args : List String) :
    (args.headD "" = "" →
      cmdVolume cfg args = .error "Volume specified can not be an empty string") ∧
    (args.headD "" ≠ "" →
      cmdVolume cfg args =
        .ok { cfg with Volumes := some (addConfigArrayAsMap cfg.Volumes args) } ∧
      ∀ a ∈ args, a ∈ addConfigArrayAsMap cfg.Volumes args) := by
  constructor
  · intro h
    unfold cmdVolume
    rw [if_pos h]
  · intro h
    refine ⟨?_, fun a ha => addConfigArrayAsMap_mem _ _ a ha⟩
    unfold cmdVolume
    rw [if_neg h]

/-- C9 witness: `claim9_amended` applied to an empty-first-argument call
and to a well-formed call. -/
theorem claim9_witness :
    (([""] : List String).headD "" = "" ∧
      cmdVolume {} [""] = .error "Volume specified can not be an empty string") ∧
    ((["/data", "/tmp"] : List String).headD "" ≠ "" ∧
      (cmdVolume {} ["/data", "/tmp"] =
        .ok { Volumes := some (addConfigArrayAsMap (DockerConfig.Volumes {}) ["/data", "/tmp"]) } ∧
      ∀ a ∈ (["/data", "/tmp"] : List String),
        a ∈ addConfigArrayAsMap (DockerConfig.Volumes {}) ["/data", "/tmp"])) :=
  ⟨⟨by decide, (claim9_amended {} [""]).1 (by decide)⟩,
   ⟨by decide, (claim9_amended {} ["/data", "/tmp"]).2 (by decide)⟩⟩

/-! ### Split/join lemmas shared by the EXPOSE and path-resolver proofs -/

theorem splitOnChar_ne_nil (sep : Char) (l : List Char) :
    splitOnChar sep l ≠ [] := by
  induction l with
  | nil => simp [splitOnChar]
  | cons c cs ih =>
    simp only [splitOnChar]
    split
    · simp
    · split
      · simp
      · simp

theorem splitOnChar_no_sep (sep : Char) (l : List Char) (h : sep ∉ l) :
    splitOnChar sep l = [l] := by
  induction l with
  | nil => rfl
  | cons c cs ih =>
    have hc : c ≠ sep := fun hcs => h (by simp [hcs])
    have ih2 := ih (fun hmem => h (by simp [hmem]))
    simp [splitOnChar, hc, ih2]

theorem splitOnChar_append_sep (sep : Char) (w r : List Char) (hw : sep ∉ w) :
    splitOnChar sep (w ++ sep :: r) = w :: splitOnChar sep r := by
  induction w with
  | nil => simp [splitOnChar]
  | cons c cs ih =>
    have hc : c ≠ sep := fun hcs => hw (by simp [hcs])
    have ih2 := ih (fun hmem => hw (by simp [hmem]))
    simp only [List.cons_append, splitOnChar, List.append_eq]
    rw [if_neg hc, ih2]

/-! ### C7: EXPOSE arguments, protocols and port ranges -/

/-- C7: every EXPOSE argument is lowercased; an argument without `/`
defaults to protocol tcp; an argument of the form `begin-end` expands to
one `port/proto` entry for every port from begin to end inclusive when
`end ≥ begin` and fails the build when `end < begin`; and
`EXPOSE 2374 2375 7000 8000-8010` yields exactly 14 entries in
`config.ExposedPorts`, all ending in `/tcp`. -/
theorem claim7_expose :
    (∀ s : String, '/' ∉ s.data → '-' ∉ s.data →
      expandPortArg s = .ok [s ++ "/" ++ "tcp"]) ∧
    (∀ (sb se : String) (bn en : Nat),
      '/' ∉ sb.data → '-' ∉ sb.data → '/' ∉ se.data → '-' ∉ se.data →
      parseIntJS sb = some bn → parseIntJS se = some en →
      expandPortArg (sb ++ "-" ++ se) =
        if en < bn then .error ("Invalid containerPort: " ++ (sb ++ "-" ++ se))
        else .ok ((List.range (en + 1 - bn)).map
          fun k => toString (bn + k) ++ "/" ++ "tcp")) ∧
    ((cmdExpose {} ["2374", "2375", "7000", "8000-8010"]).map
        (fun c => ((c.ExposedPorts.getD []).length,
          (c.ExposedPorts.getD []).all (fun p => "/tcp".data.isSuffixOf p.data))) =
      .ok (14, true)) := by
  have hmk : ∀ s : String, String.mk s.data = s := fun _ => rfl
  refine ⟨?_, ?_, by decide⟩
  · intro s hs hd
    unfold expandPortArg
    rw [splitOnChar_no_sep '/' s.data hs]
    simp only [List.map_cons, List.map_nil, hmk]
    rw [splitOnChar_no_sep '-' s.data hd]
    simp
  · intro sb se bn en hs1 hd1 hs2 hd2 hb he
    have hdata : (sb ++ "-" ++ se).data = sb.data ++ '-' :: se.data := by
      simp [String.data_append]
    have hslash : '/' ∉ (sb ++ "-" ++ se).data := by
      rw [hdata]
      intro hmem
      rcases List.mem_append.mp hmem with h | h
      · exact hs1 h
      · rcases List.mem_cons.mp h with h | h
        · exact absurd h (by decide)
        · exact hs2 h
    unfold expandPortArg
    rw [splitOnChar_no_sep '/' _ hslash]
    simp only [List.map_cons, List.map_nil, hmk]
    rw [hdata, splitOnChar_append_sep '-' sb.data se.data hd1,
      splitOnChar_no_sep '-' se.data hd2]
    simp only [List.map_cons, List.map_nil, hmk]
    simp [hb, he]

/-- C7 witness: the general parts of `claim7_expose` applied to the
arguments of the scenario, plus a failing reversed range. -/
theorem claim7_witness :
    ('/' ∉ "7000".data ∧ '-' ∉ "7000".data ∧
      expandPortArg "7000" = .ok ["7000" ++ "/" ++ "tcp"]) ∧
    (parseIntJS "8000" = some 8000 ∧ parseIntJS "8010" = some 8010 ∧
      expandPortArg ("8000" ++ "-" ++ "8010") =
        if (8010 : Nat) < 8000 then
          .error ("Invalid containerPort: " ++ ("8000" ++ "-" ++ "8010"))
        else .ok ((List.range (8010 + 1 - 8000)).map
          fun k => toString (8000 + k) ++ "/" ++ "tcp")) ∧
    (expandPortArg ("9" ++ "-" ++ "5") =
        if (5 : Nat) < 9 then
          .error ("Invalid containerPort: " ++ ("9" ++ "-" ++ "5"))
        else .ok ((List.range (5 + 1 - 9)).map
          fun k => toString (9 + k) ++ "/" ++ "tcp")) :=
  ⟨⟨by decide, by decide,
    claim7_expose.1 "7000" (by decide) (by decide)⟩,
   ⟨by decide, by decide,
    claim7_expose.2.1 "8000" "8010" 8000 8010 (by decide) (by decide) (by decide)
      (by decide) (by decide) (by decide)⟩,
   claim7_expose.2.1 "9" "5" 9 5 (by decide) (by decide) (by decide)
      (by decide) (by decide) (by decide)⟩

/-! ### Pipeline lemmas for C2 and C8 -/

theorem runStep_cmdSet (st : BuildState) (i : Instr) :
    (runStep st i).cmdSet = (st.cmdSet || i.isCmd) := by
  cases i <;> simp [runStep, postStep, mainStep, Instr.isCmd]

theorem runBuild_cmdSet (L : List Instr) (st : BuildState) :
    (runBuild st L).cmdSet = (st.cmdSet || L.any Instr.isCmd) := by
  induction L generalizing st with
  | nil => simp [runBuild]
  | cons i L ih =>
    show (runBuild (runStep st i) L).cmdSet = _
    rw [ih, runStep_cmdSet]
    simp [Bool.or_assoc]

/-- If `cmdSet` is set then `config.Cmd` holds a list; preserved by every
step. -/
theorem runBuild_cmdSet_cmd (L : List Instr) (st : BuildState)
    (h : st.cmdSet = true → ∃ l, st.config.Cmd = some l) :
    (runBuild st L).cmdSet = true → ∃ l, (runBuild st L).config.Cmd = some l := by
  induction L generalizing st with
  | nil => exact h
  | cons i L ih =>
    show (runBuild (runStep st i) L).cmdSet = true → _
    refine ih (runStep st i) ?_
    cases i with
    | fromScratch => exact h
    | cmdI a => intro _; exact ⟨fixShellCommandArguments a, rfl⟩
    | entrypointI a =>
      intro hset
      have hst : st.cmdSet = true := by
        have := runStep_cmdSet st (.entrypointI a)
        rw [hset] at this
        simpa [Instr.isCmd] using this.symm
      obtain ⟨l, hl⟩ := h hst
      exact ⟨l, by simp [runStep, postStep, mainStep, hst, hl]⟩
    | runI a => exact h
    | userI s => exact h

/-! ### C8: ENTRYPOINT sets Entrypoint and clears Cmd iff no prior CMD -/

/-- C8: after running any prefix `L` of a build (from the fresh builder
state), processing an ENTRYPOINT instruction sets `config.Entrypoint` to
the shell-wrapped argument list, and sets `config.Cmd` to null if and only
if no CMD instruction occurs in `L`; when a CMD was processed in the same
build, `config.Cmd` is left unchanged. -/
theorem claim8_entrypoint (L : List Instr) (a : CmdArgs) :
    (runStep (runBuild {} L) (.entrypointI a)).config.Entrypoint =
      some (fixShellCommandArguments a) ∧
    ((runStep (runBuild {} L) (.entrypointI a)).config.Cmd = none ↔
      L.any Instr.isCmd = false) ∧
    (L.any Instr.isCmd = true →
      (runStep (runBuild {} L) (.entrypointI a)).config.Cmd =
        (runBuild {} L).config.Cmd) := by
  have hset : (runBuild {} L).cmdSet = L.any Instr.isCmd := by
    rw [runBuild_cmdSet]
    rfl
  refine ⟨by simp [runStep, postStep, mainStep], ?_, ?_⟩
  · cases hany : L.any Instr.isCmd with
    | false =>
      simp only [runStep, postStep, mainStep]
      rw [hany] at hset
      simp [hset]
    | true =>
      rw [hany] at hset
      obtain ⟨l, hl⟩ := runBuild_cmdSet_cmd L {} (by simp) hset
      simp only [runStep, postStep, mainStep]
      simp [hset, hl]
  · intro hany
    rw [hany] at hset
    simp [runStep, postStep, mainStep, hset]

/-- C8 witness: `claim8_entrypoint` applied to a build with a CMD and to a
build without one. -/
theorem claim8_witness :
    (([Instr.cmdI (.str "c")] : List Instr).any Instr.isCmd = true ∧
      (runStep (runBuild {} [Instr.cmdI (.str "c")])
          (.entrypointI (.str "e"))).config.Cmd =
        (runBuild {} [Instr.cmdI (.str "c")]).config.Cmd) ∧
    ((runStep (runBuild {} [Instr.userI "bob"])
        (.entrypointI (.str "e"))).config.Cmd = none ↔
      ([Instr.userI "bob"] : List Instr).any Instr.isCmd = false) :=
  ⟨⟨by decide,
    (claim8_entrypoint [Instr.cmdI (.str "c")] (.str "e")).2.2 (by decide)⟩,
   (claim8_entrypoint [Instr.userI "bob"] (.str "e")).2.1⟩

/-! ### C2: the container_config.Cmd vs config.Cmd divergence -/

/-- The CMD nop command can never equal the CMD argument list: the third
element would have to contain a strictly longer copy of itself. -/
theorem nopCmd_ne_cmd_args (bargs : BuildArgs) (args : List String) :
    getNopCmdForCommand bargs "CMD" (.list args) ≠ args := by
  intro heq
  have hnop : getNopCmdForCommand bargs "CMD" (.list args) =
      ["/bin/sh", "-c",
        "#(nop) " ++ ("[" ++ joinSpace (args.map fun a => "\"" ++ a ++ "\"") ++ "]")] := by
    simp [getNopCmdForCommand]
  rw [hnop] at heq
  have hlen3 : args.length = 3 := by
    rw [← heq]
    rfl
  obtain ⟨a, b, c, rfl⟩ := List.length_eq_three.mp hlen3
  simp only [List.map_cons, List.map_nil, joinSpace, List.cons.injEq, and_true] at heq
  obtain ⟨ha, hb, hc⟩ := heq
  have hclen := congrArg String.length hc
  simp only [String.length_append,
    show ("#(nop) " : String).length = 7 from by decide,
    show ("[" : String).length = 1 from by decide,
    show ("]" : String).length = 1 from by decide,
    show ("\"" : String).length = 1 from by decide,
    show (" " : String).length = 1 from by decide] at hclen
  omega

/-- All stored layers of a build satisfy: a CMD layer has
`container_config.Cmd ≠ config.Cmd`. -/
theorem runBuild_cmd_layer_ne (L : List Instr) (st : BuildState)
    (h : ∀ lay ∈ st.layers, lay.name = "CMD" → lay.containerCmd ≠ lay.configCmd) :
    ∀ lay ∈ (runBuild st L).layers, lay.name = "CMD" →
      lay.containerCmd ≠ lay.configCmd := by
  induction L generalizing st with
  | nil => exact h
  | cons i L ih =>
    show ∀ lay ∈ (runBuild (runStep st i) L).layers, _
    refine ih (runStep st i) ?_
    intro lay hmem hname
    have hmem2 : lay ∈ st.layers ∨
        lay = { name := i.name, configCmd := (mainStep st i).config.Cmd,
                containerCmd := some (getNopCmdForCommand st.buildArgs i.name
                  i.fixedArgs) } := by
      cases i <;>
        simpa [runStep, postStep, List.mem_append] using hmem
    rcases hmem2 with hmem2 | rfl
    · exact h lay hmem2 hname
    · cases i with
      | fromScratch => simp [Instr.name] at hname
      | cmdI a =>
        simp only [Instr.name, Instr.fixedArgs, mainStep, ne_eq, Option.some.injEq]
        intro hcontra
        exact nopCmd_ne_cmd_args st.buildArgs (fixShellCommandArguments a) hcontra
      | entrypointI a => simp [Instr.name] at hname
      | runI a => simp [Instr.name] at hname
      | userI s => simp [Instr.name] at hname

/-- C2 counterexample: in the non-cached build
`FROM scratch` / `CMD echo hi` / `RUN echo hi`, the RUN step (index 2 > 0)
stores a layer whose `container_config.Cmd` *equals* its `config.Cmd` (both
are `["/bin/sh", "-c", "echo hi"]`): the RUN nop command with no build args
is the wrapped RUN command itself, which coincides with the Cmd set by the
earlier CMD instruction. -/
theorem claim2_counterexample :
    ((runBuild {} [.fromScratch, .cmdI (.str "echo hi"), .runI (.str "echo hi")]).layers.map
      fun lay => decide (lay.containerCmd = lay.configCmd)) = [false, false, true] := by
  decide

/-- C2 amended: in a non-cached build, every stored layer whose
instruction is CMD satisfies `container_config.Cmd ≠ config.Cmd` (the nop
wrapper cannot reproduce the argument list); for RUN layers the two fields
can coincide. -/
theorem claim2_amended (L : List Instr) (i : Nat) (lay : Layer)
    (h : (runBuild {} L).layers.get? i = some lay) (hname : lay.name = "CMD") :
    lay.containerCmd ≠ lay.configCmd :=
  runBuild_cmd_layer_ne L {} (by simp) lay (List.get?_mem h) hname

/-- C2 witness: `claim2_amended` applied to the CMD layer of the
counterexample build. -/
theorem claim2_witness :
    ((runBuild {} [.fromScratch, .cmdI (.str "echo hi")]).layers.get? 1 =
      some { name := "CMD", configCmd := some ["/bin/sh", "-c", "echo hi"],
             containerCmd := some ["/bin/sh", "-c",
               "#(nop) [\"/bin/sh\" \"-c\" \"echo hi\"]"] }) ∧
    ({ name := "CMD", configCmd := some ["/bin/sh", "-c", "echo hi"],
       containerCmd := some ["/bin/sh", "-c",
         "#(nop) [\"/bin/sh\" \"-c\" \"echo hi\"]"] } : Layer).containerCmd ≠
      ({ name := "CMD", configCmd := some ["/bin/sh", "-c", "echo hi"],
         containerCmd := some ["/bin/sh", "-c",
           "#(nop) [\"/bin/sh\" \"-c\" \"echo hi\"]"] } : Layer).configCmd :=
  ⟨by decide,
   claim2_amended [.fromScratch, .cmdI (.str "echo hi")] 1 _ (by decide) (by decide)⟩

/-! ### Path primitive lemmas for C1 -/

theorem mem_splitOnChar_not_sep (sep : Char) (l : List Char) :
    ∀ w ∈ splitOnChar sep l, sep ∉ w := by
  induction l with
  | nil =>
    intro w hw
    simp only [splitOnChar, List.mem_singleton] at hw
    simp [hw]
  | cons c cs ih =>
    intro w hw
    simp only [splitOnChar] at hw
    by_cases hc : c = sep
    · rw [if_pos hc] at hw
      rcases List.mem_cons.mp hw with rfl | hw
      · simp
      · exact ih w hw
    · rw [if_neg hc] at hw
      cases hsp : splitOnChar sep cs with
      | nil => exact absurd hsp (splitOnChar_ne_nil sep cs)
      | cons h t =>
        rw [hsp] at hw
        rcases List.mem_cons.mp hw with rfl | hw
        · intro hmem
          rcases List.mem_cons.mp hmem with h1 | h1
          · exact hc h1.symm
          · exact ih h (by rw [hsp]; simp) h1
        · exact ih w (by rw [hsp]; simp [hw])

theorem joinChar_cons_cons (sep : Char) (w v : List Char) (vs : List (List Char)) :
    joinChar sep (w :: v :: vs) = w ++ sep :: joinChar sep (v :: vs) := rfl

theorem joinChar_ne_nil (sep : Char) (ws : List (List Char)) (hne : ws ≠ [])
    (hcl : ∀ w ∈ ws, w ≠ []) : joinChar sep ws ≠ [] := by
  cases ws with
  | nil => exact absurd rfl hne
  | cons w vs =>
    cases vs with
    | nil => simpa [joinChar] using hcl w (by simp)
    | cons v vs' => simp [joinChar_cons_cons]

theorem joinChar_append (sep : Char) (rc cc : List (List Char)) (h1 : rc ≠ [])
    (h2 : cc ≠ []) :
    joinChar sep (rc ++ cc) = joinChar sep rc ++ sep :: joinChar sep cc := by
  induction rc with
  | nil => exact absurd rfl h1
  | cons w ws ih =>
    cases ws with
    | nil =>
      cases cc with
      | nil => exact absurd rfl h2
      | cons v vs => simp [joinChar, joinChar_cons_cons]
    | cons x xs =>
      have hx : (x :: xs) ++ cc ≠ [] := by simp
      calc joinChar sep ((w :: x :: xs) ++ cc)
          = w ++ sep :: joinChar sep ((x :: xs) ++ cc) := by
            cases cc with
            | nil => exact absurd rfl h2
            | cons v vs => simp [joinChar_cons_cons]
        _ = w ++ sep :: (joinChar sep (x :: xs) ++ sep :: joinChar sep cc) := by
            rw [ih (by simp)]
        _ = joinChar sep (w :: x :: xs) ++ sep :: joinChar sep cc := by
            simp [joinChar_cons_cons]

theorem splitOnChar_joinChar_append (sep : Char) (ws : List (List Char))
    (r : List Char) (hne : ws ≠ []) (hcl : ∀ w ∈ ws, sep ∉ w) :
    splitOnChar sep (joinChar sep ws ++ sep :: r) = ws ++ splitOnChar sep r := by
  induction ws with
  | nil => exact absurd rfl hne
  | cons w vs ih =>
    cases vs with
    | nil =>
      simpa [joinChar] using splitOnChar_append_sep sep w r (hcl w (by simp))
    | cons v vs' =>
      rw [joinChar_cons_cons, List.append_assoc, List.cons_append]
      rw [splitOnChar_append_sep sep w _ (hcl w (by simp))]
      rw [ih (by simp) (fun x hx => hcl x (by simp [hx]))]
      rfl

theorem splitOnChar_joinChar (sep : Char) (ws : List (List Char))
    (hne : ws ≠ []) (hcl : ∀ w ∈ ws, sep ∉ w) :
    splitOnChar sep (joinChar sep ws) = ws := by
  induction ws with
  | nil => exact absurd rfl hne
  | cons w vs ih =>
    cases vs with
    | nil => simpa [joinChar] using splitOnChar_no_sep sep w (hcl w (by simp))
    | cons v vs' =>
      rw [joinChar_cons_cons,
        splitOnChar_append_sep sep w _ (hcl w (by simp)),
        ih (by simp) (fun x hx => hcl x (by simp [hx]))]

theorem joinChar_getLast_ne_sep (ws : List (List Char)) (hne : ws ≠ [])
    (hcl : ∀ w ∈ ws, CleanComp w) :
    (joinChar '/' ws).getLast? ≠ some '/' := by
  induction ws with
  | nil => exact absurd rfl hne
  | cons w vs ih =>
    cases vs with
    | nil =>
      obtain ⟨hw, _, _, hsl⟩ := hcl w (by simp)
      simp only [joinChar]
      intro hlast
      have hmem : '/' ∈ w.getLast? := by rw [hlast]; rfl
      obtain ⟨hwne, hx⟩ := List.mem_getLast?_eq_getLast hmem
      exact hsl (hx ▸ List.getLast_mem hwne)
    | cons v vs' =>
      rw [joinChar_cons_cons, List.getLast?_append_cons]
      have hJ : joinChar '/' (v :: vs') ≠ [] :=
        joinChar_ne_nil '/' (v :: vs') (by simp)
          (fun x hx => (hcl x (by simp [hx])).1)
      rw [show ('/' :: joinChar '/' (v :: vs')) = ['/'] ++ joinChar '/' (v :: vs') from rfl,
        List.getLast?_append_of_ne_nil _ hJ]
      exact ih (by simp) (fun x hx => hcl x (by simp [hx]))

theorem mem_normStep (ab : Bool) (acc : List (List Char)) (c x : List Char)
    (hx : x ∈ normStep ab acc c) :
    x ∈ acc ∨ (x = c ∧ c ≠ [] ∧ c ≠ ['.'] ∧ c ≠ ['.', '.']) ∨
      (ab = true ∧ x = ['.', '.']) := by
  unfold normStep at hx
  split at hx
  · exact Or.inl hx
  · rename_i h1
    split at hx
    · rename_i h2
      split at hx
      · split at hx
        · rename_i hab
          simp only [List.mem_singleton] at hx
          exact Or.inr (Or.inr ⟨hab, hx⟩)
        · simp at hx
      · rename_i a rest
        split at hx
        · rename_i ha
          split at hx
          · rename_i hab
            rcases List.mem_cons.mp hx with rfl | hx2
            · exact Or.inr (Or.inr ⟨hab, h2⟩)
            · exact Or.inl hx2
          · exact Or.inl hx
        · exact Or.inl (List.mem_cons_of_mem a hx)
    · rename_i h2
      rcases List.mem_cons.mp hx with rfl | hx
      · refine Or.inr (Or.inl ⟨rfl, ?_, ?_, h2⟩)
        · intro hc; exact h1 (Or.inl hc)
        · intro hc; exact h1 (Or.inr hc)
      · exact Or.inl hx

theorem mem_foldl_normStep (ab : Bool) (l : List (List Char))
    (acc : List (List Char)) (x : List Char)
    (hx : x ∈ l.foldl (normStep ab) acc) :
    x ∈ acc ∨ (x ∈ l ∧ x ≠ [] ∧ x ≠ ['.'] ∧ x ≠ ['.', '.']) ∨
      (ab = true ∧ x = ['.', '.']) := by
  induction l generalizing acc with
  | nil => exact Or.inl hx
  | cons c cs ih =>
    rcases ih (normStep ab acc c) hx with h | h | h
    · rcases mem_normStep ab acc c x h with h2 | h2 | h2
      · exact Or.inl h2
      · exact Or.inr (Or.inl ⟨h2.1 ▸ List.mem_cons_self c cs, h2.1 ▸ h2.2.1,
          h2.1 ▸ h2.2.2.1, h2.1 ▸ h2.2.2.2⟩)
      · exact Or.inr (Or.inr h2)
    · exact Or.inr (Or.inl ⟨List.mem_cons_of_mem c h.1, h.2⟩)
    · exact Or.inr (Or.inr h)

theorem mem_normComps (ab : Bool) (l : List (List Char)) (x : List Char)
    (hx : x ∈ normComps ab l) :
    (x ∈ l ∧ x ≠ [] ∧ x ≠ ['.'] ∧ x ≠ ['.', '.']) ∨ (ab = true ∧ x = ['.', '.']) := by
  unfold normComps at hx
  rw [List.mem_reverse] at hx
  rcases mem_foldl_normStep ab l [] x hx with h | h | h
  · simp at h
  · exact Or.inl h
  · exact Or.inr h

theorem foldl_normStep_clean (ab : Bool) (l : List (List Char))
    (acc : List (List Char)) (h : ∀ x ∈ l, x = [] ∨ CleanComp x) :
    l.foldl (normStep ab) acc = (l.filter (fun x => !x.isEmpty)).reverse ++ acc := by
  induction l generalizing acc with
  | nil => simp
  | cons x xs ih =>
    rcases h x (by simp) with rfl | hx
    · simp only [List.foldl_cons]
      rw [show normStep ab acc [] = acc by simp [normStep]]
      rw [ih acc (fun y hy => h y (by simp [hy]))]
      simp
    · have h1 : ¬(x = [] ∨ x = ['.']) := by
        rintro (rfl | rfl)
        · exact hx.1 rfl
        · exact hx.2.1 rfl
      have h2 : x ≠ ['.', '.'] := hx.2.2.1
      simp only [List.foldl_cons]
      rw [show normStep ab acc x = x :: acc by
        unfold normStep; rw [if_neg h1, if_neg h2]]
      rw [ih (x :: acc) (fun y hy => h y (by simp [hy]))]
      have hxe : x.isEmpty = false := by
        cases x with
        | nil => exact absurd rfl hx.1
        | cons a as => rfl
      simp [List.filter_cons, hxe]

theorem normComps_clean (ab : Bool) (l : List (List Char))
    (h : ∀ x ∈ l, x = [] ∨ CleanComp x) :
    normComps ab l = l.filter (fun x => !x.isEmpty) := by
  unfold normComps
  rw [foldl_normStep_clean ab l [] h]
  simp

/-- Normalizing any absolute path yields a normalized absolute path. -/
theorem isAbsNorm_normalizeChars (p : List Char) (hp : p.head? = some '/') :
    IsAbsNorm (String.mk (normalizeChars p)) := by
  have hpne : p ≠ [] := by intro h; rw [h] at hp; exact Option.noConfusion hp
  have hcl : ∀ x ∈ normComps false (splitOnChar '/' p), CleanComp x := by
    intro x hx
    rcases mem_normComps false (splitOnChar '/' p) x hx with h | h
    · exact ⟨h.2.1, h.2.2.1, h.2.2.2, mem_splitOnChar_not_sep '/' p x h.1⟩
    · exact absurd h.1 (by simp)
  unfold normalizeChars
  rw [if_neg hpne]
  simp only [hp, if_pos rfl]
  set K := normComps false (splitOnChar '/' p) with hK
  by_cases hb : joinChar '/' K = []
  · refine ⟨[], false, by simp, by simp, ?_⟩
    simp [hb, hp, absPath, joinChar]
  · have hKne : K ≠ [] := by
      intro h
      rw [h] at hb
      exact hb rfl
    by_cases ht : p.getLast? = some '/'
    · refine ⟨K, true, hcl, fun _ => hKne, ?_⟩
      simp only [hp, ht]
      simp [hb, absPath]
    · refine ⟨K, false, hcl, by simp, ?_⟩
      simp only [hp, ht]
      simp [hb, absPath]

theorem string_ne_empty_of_data (s : String) (h : s.data ≠ []) : s ≠ "" := by
  intro hs
  rw [hs] at h
  exact h rfl

/-- Joining anything onto an absolute path yields a normalized absolute
path. -/
theorem isAbsNorm_pathJoin (a b : String) (ha : a.data.head? = some '/') :
    IsAbsNorm (pathJoin a b) := by
  have hane : a ≠ "" := string_ne_empty_of_data a
    (by intro h; rw [h] at ha; exact Option.noConfusion ha)
  unfold pathJoin
  rw [if_neg (by intro h; exact hane h.1), if_neg hane]
  by_cases hbe : b = ""
  · rw [if_pos hbe]
    exact isAbsNorm_normalizeChars a.data ha
  · rw [if_neg hbe]
    refine isAbsNorm_normalizeChars _ ?_
    cases hd : a.data with
    | nil => rw [hd] at ha; exact Option.noConfusion ha
    | cons c cs =>
      rw [hd] at ha
      simp only [List.head?_cons, Option.some.injEq] at ha
      simp [hd, ha]

theorem splitOnChar_cons_sep (sep : Char) (xs : List Char) :
    splitOnChar sep (sep :: xs) = [] :: splitOnChar sep xs := by
  simp [splitOnChar]

theorem cleanComp_not_isEmpty (w : List Char) (h : CleanComp w) :
    w.isEmpty = false := by
  cases w with
  | nil => exact absurd rfl h.1
  | cons a as => rfl

/-- `normalizeChars` on an absolute input: the result is `/` followed by the
cleaned components, with the trailing slash kept when the cleaned body is
non-empty. -/
theorem normalizeChars_abs (rest : List Char) :
    normalizeChars ('/' :: rest) =
      if joinChar '/' (normComps false (splitOnChar '/' ('/' :: rest))) ≠ [] ∧
          ('/' :: rest).getLast? = some '/' then
        '/' :: (joinChar '/' (normComps false (splitOnChar '/' ('/' :: rest))) ++ ['/'])
      else '/' :: joinChar '/' (normComps false (splitOnChar '/' ('/' :: rest))) := by
  unfold normalizeChars
  rw [if_neg (List.cons_ne_nil '/' rest)]
  simp only [List.head?_cons]
  simp
  split <;> rfl

theorem filter_clean_middle (rc cc E : List (List Char))
    (hrc : ∀ w ∈ rc, CleanComp w) (hcc : ∀ w ∈ cc, CleanComp w)
    (hE : ∀ x ∈ E, x = ([] : List Char)) :
    (([] : List Char) :: (rc ++ ([] : List Char) :: (cc ++ E))).filter
      (fun x => !x.isEmpty) = rc ++ cc := by
  have hfrc : rc.filter (fun x => !x.isEmpty) = rc :=
    List.filter_eq_self.mpr fun a ha => by
      simp [cleanComp_not_isEmpty a (hrc a ha)]
  have hfcc : cc.filter (fun x => !x.isEmpty) = cc :=
    List.filter_eq_self.mpr fun a ha => by
      simp [cleanComp_not_isEmpty a (hcc a ha)]
  have hfE : E.filter (fun x => !x.isEmpty) = [] := by
    induction E with
    | nil => rfl
    | cons e es ih =>
      have he := hE e (by simp)
      rw [he]
      simpa [List.filter_cons] using ih (fun x hx => hE x (by simp [hx]))
  simp [List.filter_cons, List.filter_append, hfrc, hfcc, hfE]

/-- The crux of C1: joining a normalized absolute container path onto a
clean root keeps the root-plus-slash prefix. -/
theorem pathJoin_root_isPrefix (rc cc : List (List Char)) (trail : Bool)
    (hrc : rc ≠ []) (hrcl : ∀ w ∈ rc, CleanComp w)
    (hccl : ∀ w ∈ cc, CleanComp w) (htr : trail = true → cc ≠ []) :
    (String.mk (absPath rc false) ++ "/").data <+:
      (pathJoin (String.mk (absPath rc false)) (String.mk (absPath cc trail))).data := by
  have hnoslash_rc : ∀ w ∈ rc, '/' ∉ w := fun w hw => (hrcl w hw).2.2.2
  have hnoslash_cc : ∀ w ∈ cc, '/' ∉ w := fun w hw => (hccl w hw).2.2.2
  have hrcene : ∀ w ∈ rc, w ≠ [] := fun w hw => (hrcl w hw).1
  have hccene : ∀ w ∈ cc, w ≠ [] := fun w hw => (hccl w hw).1
  have hJrc_ne : joinChar '/' rc ≠ [] := joinChar_ne_nil '/' rc hrc hrcene
  have hroot_ne : (String.mk (absPath rc false)) ≠ "" :=
    string_ne_empty_of_data _ (by simp [absPath])
  have hcp_ne : (String.mk (absPath cc trail)) ≠ "" :=
    string_ne_empty_of_data _ (by simp [absPath])
  have hlhs : (String.mk (absPath rc false) ++ "/").data =
      ('/' :: joinChar '/' rc) ++ ['/'] := by
    simp [String.data_append, absPath]
  unfold pathJoin
  rw [if_neg (fun h => hroot_ne h.1), if_neg hroot_ne, if_neg hcp_ne]
  by_cases hcc : cc = []
  · subst hcc
    have htf : trail = false := by
      cases trail with
      | false => rfl
      | true => exact absurd rfl (fun h => htr h rfl)
    subst htf
    have hs : (String.mk (absPath rc false)).data ++ '/' ::
        (String.mk (absPath ([] : List (List Char)) false)).data =
        '/' :: (joinChar '/' rc ++ '/' :: '/' :: ([] : List Char)) := by
      simp [absPath, List.append_assoc, joinChar]
    rw [hs, normalizeChars_abs]
    have hsplit : splitOnChar '/' ('/' :: (joinChar '/' rc ++ '/' :: '/' ::
        ([] : List Char))) = [] :: (rc ++ [[], []]) := by
      rw [splitOnChar_cons_sep,
        splitOnChar_joinChar_append '/' rc _ hrc hnoslash_rc,
        splitOnChar_cons_sep]
      rfl
    rw [hsplit]
    have hK : normComps false ([] :: (rc ++ [[], []])) = rc := by
      rw [show (([] : List Char) :: (rc ++ [[], []])) =
        ([] : List Char) :: (rc ++ ([] : List Char) ::
          (([] : List (List Char)) ++ [[]])) from rfl]
      rw [normComps_clean false _ ?_]
      · rw [filter_clean_middle rc [] [[]] hrcl (by simp)
          (by intro x hx; simpa using hx)]
        simp
      · intro x hx
        rcases List.mem_cons.mp hx with rfl | hx
        · exact Or.inl rfl
        · rcases List.mem_append.mp hx with hx | hx
          · exact Or.inr (hrcl x hx)
          · left
            rcases List.mem_cons.mp hx with rfl | hx
            · rfl
            · simpa using hx
    rw [hK]
    have hlast : ('/' :: (joinChar '/' rc ++ '/' :: '/' ::
        ([] : List Char))).getLast? = some '/' := by
      rw [show ('/' :: (joinChar '/' rc ++ '/' :: '/' :: ([] : List Char))) =
        ('/' :: joinChar '/' rc) ++ ['/', '/'] from by simp]
      rw [List.getLast?_append_of_ne_nil _ (by simp)]
      rfl
    rw [if_pos ⟨hJrc_ne, hlast⟩, hlhs]
    rw [show '/' :: (joinChar '/' rc ++ ['/']) =
      ('/' :: joinChar '/' rc) ++ ['/'] from rfl]
  · have hJcc_ne : joinChar '/' cc ≠ [] := joinChar_ne_nil '/' cc hcc hccene
    have hKmid : ∀ E : List (List Char), (∀ x ∈ E, x = ([] : List Char)) →
        normComps false ([] :: (rc ++ ([] : List Char) :: (cc ++ E))) = rc ++ cc := by
      intro E hE
      rw [normComps_clean false _ ?_]
      · exact filter_clean_middle rc cc E hrcl hccl hE
      · intro x hx
        rcases List.mem_cons.mp hx with rfl | hx
        · exact Or.inl rfl
        · rcases List.mem_append.mp hx with hx | hx
          · exact Or.inr (hrcl x hx)
          · rcases List.mem_cons.mp hx with rfl | hx
            · exact Or.inl rfl
            · rcases List.mem_append.mp hx with hx | hx
              · exact Or.inr (hccl x hx)
              · exact Or.inl (hE x hx)
    cases trail with
    | false =>
      have hs : (String.mk (absPath rc false)).data ++ '/' ::
          (String.mk (absPath cc false)).data =
          '/' :: (joinChar '/' rc ++ '/' :: '/' :: joinChar '/' cc) := by
        simp [absPath, List.append_assoc]
      rw [hs, normalizeChars_abs]
      have hsplit : splitOnChar '/' ('/' :: (joinChar '/' rc ++ '/' :: '/' ::
          joinChar '/' cc)) = [] :: (rc ++ ([] : List Char) :: (cc ++ [])) := by
        rw [splitOnChar_cons_sep,
          splitOnChar_joinChar_append '/' rc _ hrc hnoslash_rc,
          splitOnChar_cons_sep,
          splitOnChar_joinChar '/' cc hcc hnoslash_cc]
        simp
      rw [hsplit, hKmid [] (by simp), joinChar_append '/' rc cc hrc hcc]
      have hlast : ('/' :: (joinChar '/' rc ++ '/' :: '/' ::
          joinChar '/' cc)).getLast? ≠ some '/' := by
        rw [show ('/' :: (joinChar '/' rc ++ '/' :: '/' :: joinChar '/' cc)) =
          ('/' :: (joinChar '/' rc ++ ['/', '/'])) ++ joinChar '/' cc from by simp]
        rw [List.getLast?_append_of_ne_nil _ hJcc_ne]
        exact joinChar_getLast_ne_sep cc hcc hccl
      rw [if_neg (fun h => hlast h.2), hlhs]
      rw [show '/' :: (joinChar '/' rc ++ '/' :: joinChar '/' cc) =
        (('/' :: joinChar '/' rc) ++ ['/']) ++ joinChar '/' cc from by simp]
      exact List.prefix_append _ _
    | true =>
      have hs : (String.mk (absPath rc false)).data ++ '/' ::
          (String.mk (absPath cc true)).data =
          '/' :: (joinChar '/' rc ++ '/' :: '/' :: (joinChar '/' cc ++ ['/'])) := by
        simp [absPath, List.append_assoc]
      rw [hs, normalizeChars_abs]
      have hsplit : splitOnChar '/' ('/' :: (joinChar '/' rc ++ '/' :: '/' ::
          (joinChar '/' cc ++ ['/']))) =
          [] :: (rc ++ ([] : List Char) :: (cc ++ [[]])) := by
        rw [splitOnChar_cons_sep,
          splitOnChar_joinChar_append '/' rc _ hrc hnoslash_rc,
          splitOnChar_cons_sep]
        rw [show joinChar '/' cc ++ ['/'] =
          joinChar '/' cc ++ '/' :: ([] : List Char) from rfl]
        rw [splitOnChar_joinChar_append '/' cc [] hcc hnoslash_cc]
        rfl
      rw [hsplit, hKmid [[]] (by intro x hx; simpa using hx),
        joinChar_append '/' rc cc hrc hcc]
      have hlast : ('/' :: (joinChar '/' rc ++ '/' :: '/' ::
          (joinChar '/' cc ++ ['/']))).getLast? = some '/' := by
        rw [show ('/' :: (joinChar '/' rc ++ '/' :: '/' ::
            (joinChar '/' cc ++ ['/']))) =
          ('/' :: (joinChar '/' rc ++ '/' :: '/' :: joinChar '/' cc)) ++ ['/']
          from by simp]
        rw [List.getLast?_append_of_ne_nil _ (by simp)]
        rfl
      rw [if_pos ⟨by simp, hlast⟩, hlhs]
      rw [show '/' :: ((joinChar '/' rc ++ '/' :: joinChar '/' cc) ++ ['/']) =
        (('/' :: joinChar '/' rc) ++ ['/']) ++ (joinChar '/' cc ++ ['/'])
        from by simp]
      exact List.prefix_append _ _

theorem IsAbsNorm.head {s : String} (h : IsAbsNorm s) :
    s.data.head? = some '/' := by
  obtain ⟨c, t, _, _, hd⟩ := h
  rw [hd]
  rfl

theorem isAbsNorm_append_slash (cp : String) (h : IsAbsNorm cp)
    (hlast : cp.data.getLast? ≠ some '/') : IsAbsNorm (cp ++ "/") := by
  obtain ⟨comps, trail, hcl, htr, hd⟩ := h
  cases trail with
  | true =>
    exfalso
    apply hlast
    rw [hd]
    unfold absPath
    rw [show (if (true : Bool) then ['/'] else ([] : List Char)) = ['/'] from rfl]
    rw [show '/' :: joinChar '/' comps ++ ['/'] =
      ('/' :: joinChar '/' comps) ++ ['/'] from rfl]
    rw [List.getLast?_append_of_ne_nil _ (by simp)]
    rfl
  | false =>
    by_cases hc : comps = []
    · exfalso
      apply hlast
      rw [hd, hc]
      rfl
    · refine ⟨comps, true, hcl, fun _ => hc, ?_⟩
      rw [String.data_append, hd]
      unfold absPath
      simp

/-- The component walk keeps the inside path normalized and absolute,
provided the symlink resolver does. -/
theorem resolveLoop_isAbsNorm (fs : FileSystem) (rootDir : String)
    (recurse : String → Except ResolveError String)
    (hrec : ∀ t r, recurse t = .ok r → IsAbsNorm r) (target : String)
    (comps : List String) :
    ∀ (cp : String), IsAbsNorm cp →
      ∀ out, resolveLoop fs rootDir recurse target cp comps = .ok out →
        IsAbsNorm out := by
  induction comps with
  | nil =>
    intro cp hcp out hout
    unfold resolveLoop at hout
    cases hout
    exact hcp
  | cons c rest ih =>
    intro cp hcp out hout
    unfold resolveLoop at hout
    by_cases hchk : outsideRootCheck rootDir (pathJoin rootDir (pathJoin cp c)) = true
    · rw [if_neg (by simp [hchk])] at hout
      cases hfs : fsLstat fs (pathJoin rootDir (pathJoin cp c)) with
      | none =>
        simp only [hfs] at hout
        by_cases hrest : rest = []
        · rw [if_pos hrest] at hout
          cases hout
          exact isAbsNorm_pathJoin cp c hcp.head
        · rw [if_neg hrest] at hout
          cases hout
          exact isAbsNorm_pathJoin (pathJoin cp c) _
            (isAbsNorm_pathJoin cp c hcp.head).head
      | some entry =>
        cases entry with
        | file =>
          simp only [hfs] at hout
          exact ih (pathJoin cp c) (isAbsNorm_pathJoin cp c hcp.head) out hout
        | dir =>
          simp only [hfs] at hout
          exact ih (pathJoin cp c) (isAbsNorm_pathJoin cp c hcp.head) out hout
        | symlink linkTarget =>
          simp only [hfs] at hout
          cases hrc : recurse (if linkTarget.data.head? = some '/' then linkTarget
              else pathJoin cp linkTarget) with
          | error e =>
            rw [hrc] at hout
            exact absurd hout (by simp)
          | ok cp2 =>
            rw [hrc] at hout
            exact ih cp2 (hrec _ cp2 hrc) out hout
    · rw [if_pos (by simp [Bool.not_eq_true] at hchk; simp [hchk])] at hout
      exact absurd hout (by simp)

/-- Every successful resolution returns a normalized absolute container
path. -/
theorem getRealpath_isAbsNorm (fs : FileSystem) (root : String) :
    ∀ (fuel : Nat) (target out : String),
      getRealpathFromRootDirFuel fs root fuel target = .ok out →
      IsAbsNorm out := by
  intro fuel
  induction fuel with
  | zero =>
    intro t out h
    exact absurd h (by simp [getRealpathFromRootDirFuel])
  | succ n ih =>
    intro t out h
    unfold getRealpathFromRootDirFuel at h
    split at h
    · exact absurd h (by simp)
    · rename_i cp hcp
      have hroot : IsAbsNorm "/" := ⟨[], false, by simp, by simp, by decide⟩
      have hc : IsAbsNorm cp :=
        resolveLoop_isAbsNorm fs root _ (fun a b hb => ih a b hb) t _ "/" hroot cp hcp
      cases h
      split
      · rename_i hcond
        exact isAbsNorm_append_slash cp hc hcond.2
      · exact hc

/-! ### C1: resolver containment and the clamping of `/../../../../..` -/

/-- C1: for every file system, target path and sandbox root directory (a
normalized absolute directory path below `/`), `getRealpathFromRootDir`
either raises an error (`ForbiddenPath`, or the fatal too-many-symlinks
error after more than 20 resolutions — the only constructors of
`ResolveError`) or returns a container path that, joined to the root, is
equal to the root or has the root plus `/` as a prefix.  In particular a
symlink whose target is `/../../../../..` resolves to `/`, never outside
the root. -/
theorem claim1_path_resolver :
    (∀ (fs : FileSystem) (target : String) (rc : List (List Char)) (cp : String),
      rc ≠ [] → (∀ w ∈ rc, CleanComp w) →
      getRealpathFromRootDir fs target (String.mk (absPath rc false)) = .ok cp →
      (pathJoin (String.mk (absPath rc false)) cp = String.mk (absPath rc false) ∨
        (String.mk (absPath rc false) ++ "/").data <+:
          (pathJoin (String.mk (absPath rc false)) cp).data)) ∧
    getRealpathFromRootDir [("/r/a", .symlink "/../../../../..")] "/a" "/r" =
      .ok "/" := by
  constructor
  · intro fs target rc cp hrc hrcl hok
    right
    have hcp : IsAbsNorm cp :=
      getRealpath_isAbsNorm fs (String.mk (absPath rc false)) 21 target cp hok
    obtain ⟨cc, trail, hccl, htr, hd⟩ := hcp
    obtain ⟨d⟩ := cp
    cases hd
    exact pathJoin_root_isPrefix rc cc trail hrc hrcl hccl htr
  · decide

/-- C1 witness: `claim1_path_resolver` applied to the root `/r` and the
target `/x` over the empty file system. -/
theorem claim1_witness :
    (([['r']] : List (List Char)) ≠ [] ∧
      (∀ w ∈ ([['r']] : List (List Char)), CleanComp w) ∧
      getRealpathFromRootDir [] "/x" (String.mk (absPath [['r']] false)) = .ok "/x") ∧
    (pathJoin (String.mk (absPath [['r']] false)) "/x" =
        String.mk (absPath [['r']] false) ∨
      (String.mk (absPath [['r']] false) ++ "/").data <+:
        (pathJoin (String.mk (absPath [['r']] false)) "/x").data) :=
  ⟨⟨by decide, by decide, by decide⟩,
   claim1_path_resolver.1 [] "/x" [['r']] "/x" (by decide) (by decide) (by decide)⟩

end SdcDockerBuild
